import Mathlib

/-!
# MuleShield-AI: clustered graph-layout and filtering engine

Shallow embedding of the layout/filter engine of the MuleShield-AI frontend
(the `processGraphData` callbacks of the Network Graph pages), together with
proofs of the spec's testable properties.

The embedding follows the JavaScript source line by line:
* node/edge filtering (`filteredNodes`, `visibleEdges`);
* grouping by `cluster_id` into a plain JS object (`clusterGroups`), whose
  `Object.entries` ordering puts non-negative integer keys first in ascending
  order, followed by the remaining keys in insertion order;
* per-node degree counting (`connCount`);
* per-cluster stable descending sort by degree and hub-centred ring placement
  (`stableSortDesc`, `placeNode`, `layoutCluster`, `flowNodes`);
* per-cluster hub selection for connector edges (`reduceHub`, `clusterCenters`)
  and cross-cluster pair detection via textual keys (`pairKey`, `crossPairs`,
  `connectorEdges`), including JavaScript's `join('-')`/`split('-')`/`Number`
  string behaviour, which is modelled exactly on `List Char`.

Positions are exact: a ring position is recorded as its centre-relative
radius together with its angle as a rational multiple of pi
(`LocalPos.onRing r a` stands for the point `center + r·(cos aπ, sin aπ)`);
all divisions are over `ℚ`, and the non-vanishing of the one divisor of the
placement math (`nodesInRingOf`) is proved separately, which over exact
arithmetic is precisely the absence of `NaN`/`Infinity` coordinates.
-/

namespace MuleShield

/-- A raw graph node, as consumed by `processGraphData`.  `cluster_id = none`
models a JavaScript `undefined` cluster id. -/
structure Node where
  id : String
  risk_score : Int
  mule_suspected : Bool
  cluster_id : Option Int
deriving DecidableEq, Repr

/-- A raw directed edge between node ids. -/
structure Edge where
  source : String
  target : String
  suspicious : Bool
deriving DecidableEq, Repr

/-- A graph snapshot `{nodes, edges}` whose collections may be missing
(`none` models a JavaScript `undefined`/`null` field). -/
structure RawData where
  nodes : Option (List Node)
  edges : Option (List Edge)
deriving DecidableEq, Repr

/-- A graph snapshot with both collections present. -/
structure GraphData where
  nodes : List Node
  edges : List Edge
deriving DecidableEq, Repr

/-- The view configuration: `cluster = none` models the empty-string (falsy)
cluster filter of the UI. -/
structure Filters where
  showMuleOnly : Bool
  minRiskScore : Int
  cluster : Option Int
deriving DecidableEq, Repr

/-- Node filter of `processGraphData`:
`if (filters.showMuleOnly && !node.mule_suspected) return false;
 if (node.risk_score < filters.minRiskScore) return false;
 if (filters.cluster && node.cluster_id !== parseInt(filters.cluster)) return false`. -/
def filteredNodes (data : GraphData) (f : Filters) : List Node :=
  data.nodes.filter fun n =>
    (!(f.showMuleOnly && !n.mule_suspected)) &&
    (!(n.risk_score < f.minRiskScore)) &&
    (match f.cluster with
     | none => true
     | some c => n.cluster_id == some c)

/-- Edge filter: keep edges whose both endpoints are visible
(`nodeIds.has(edge.source.toString()) && nodeIds.has(edge.target.toString())`). -/
def visibleEdges (data : GraphData) (f : Filters) : List Edge :=
  data.edges.filter fun e =>
    ((filteredNodes data f).map Node.id).contains e.source &&
    ((filteredNodes data f).map Node.id).contains e.target

/-- The grouping key: `node.cluster_id !== undefined ? node.cluster_id : -1`. -/
def groupKey (n : Node) : Int :=
  n.cluster_id.getD (-1)

/-- Append `k` to `acc` unless already present: the key-creation pattern
`if (!obj[k]) obj[k] = []` (and likewise `Set.add`) keeps first-insertion
order, deduplicated. -/
def insertDistinct {α : Type} [DecidableEq α] (acc : List α) (k : α) : List α :=
  if k ∈ acc then acc else acc ++ [k]

/-- The distinct group keys of a node list, in first-occurrence order. -/
def distinctKeys (ns : List Node) : List Int :=
  ns.foldl (fun acc n => insertDistinct acc (groupKey n)) []

/-- Ascending insertion into a sorted `Int` list. -/
def insAsc (x : Int) : List Int → List Int
  | [] => [x]
  | y :: ys => if x ≤ y then x :: y :: ys else y :: insAsc x ys

/-- Ascending insertion sort on `Int`. -/
def sortAscInts : List Int → List Int
  | [] => []
  | k :: ks => insAsc k (sortAscInts ks)

/-- `Object.entries` key order of a JS object with integer-valued keys:
array-index keys (the non-negative ones) first, in ascending numeric order,
then the remaining (negative) keys in insertion order. -/
def entriesOrder (ks : List Int) : List Int :=
  sortAscInts (ks.filter fun k => 0 ≤ k) ++ ks.filter fun k => k < 0

/-- `clusterGroups`: visible nodes grouped by `groupKey`, in the key order of
`Object.entries`; each member list keeps the filtered-node order. -/
def clusterGroups (data : GraphData) (f : Filters) : List (Int × List Node) :=
  (entriesOrder (distinctKeys (filteredNodes data f))).map fun k =>
    (k, (filteredNodes data f).filter fun n => groupKey n = k)

/-- `connectionCount`: each visible edge increments its source's and its
target's count by one each (a self-loop therefore contributes 2). -/
def connCount (es : List Edge) (i : String) : Nat :=
  es.foldl
    (fun acc e =>
      acc + (if e.source = i then 1 else 0) + (if e.target = i then 1 else 0))
    0

/-- Insertion step of the stable descending sort: an element moves left past
strictly smaller keys only, so elements with equal keys keep their original
relative order — the behaviour of the (ES2019-stable) JS
`sort((a, b) => countB - countA)`. -/
def insDesc {α : Type} (key : α → Nat) (x : α) : List α → List α
  | [] => [x]
  | y :: ys => if key y ≤ key x then x :: y :: ys else y :: insDesc key x ys

/-- Stable sort by descending key. -/
def stableSortDesc {α : Type} (key : α → Nat) : List α → List α
  | [] => []
  | x :: xs => insDesc key x (stableSortDesc key xs)

/-- A node position relative to its cluster's centre `(centerX, centerY)`:
either exactly the centre (`x = centerX; y = centerY`), or on a ring,
recorded as the ring radius and the angle as a rational multiple of π
(the source computes `angle = (posInRing / nodesInRing) * Math.PI * 2 +
(ring % 2) * Math.PI / 8`; `onRing r a` stands for
`(centerX + r·cos(aπ), centerY + r·sin(aπ))`). -/
inductive LocalPos where
  | atCenter : LocalPos
  | onRing (ringRadius : ℚ) (anglePi : ℚ) : LocalPos
deriving DecidableEq, Repr

/-- The divisor of the ring placement:
`nodesInRing = Math.min(8, clusterSize - 1 - (ring - 1) * 8)` where
`ring = Math.floor((idx - 1) / 8) + 1`.  `Int.fdiv` is floor division,
matching `Math.floor` of a real quotient. -/
def nodesInRingOf (clusterSize idx : Nat) : Int :=
  min 8 ((clusterSize : Int) - 1 - ((Int.fdiv ((idx : Int) - 1) 8 + 1) - 1) * 8)

/-- Ring placement of the node at index `idx` of the sorted member list of a
cluster of `clusterSize` nodes.  `Int.tmod` is JS `%` (remainder with the
dividend's sign), `Int.fdiv` is `Math.floor` of the quotient. -/
def placeNode (clusterSize idx : Nat) : LocalPos :=
  if idx = 0 ∧ 1 < clusterSize then
    LocalPos.atCenter
  else
    let im1 : Int := (idx : Int) - 1
    let ring : Int := Int.fdiv im1 8 + 1
    let posInRing : Int := Int.tmod im1 8
    let nodesInRing : Int := nodesInRingOf clusterSize idx
    let ringRadius : ℚ := (ring : ℚ) * 60
    let angleOffset : ℚ := ((Int.tmod ring 2 : Int) : ℚ) / 8
    LocalPos.onRing ringRadius
      ((posInRing : ℚ) / (nodesInRing : ℚ) * 2 + angleOffset)

/-- One entry of the `flowNodes` output: the node id, the original
`cluster_id` carried in `data` (used later by `nodeClusterMap`), the group
key whose cluster centre the position is relative to, the position, and the
degree stored in `data.degree`. -/
structure FlowNode where
  id : String
  cluster_id : Option Int
  key : Int
  pos : LocalPos
  degree : Nat
deriving DecidableEq, Repr

/-- The `sortedNodes.forEach((node, idx) => …)` loop of one cluster. -/
def placeMembers (deg : String → Nat) (k : Int) (clusterSize : Nat) :
    Nat → List Node → List FlowNode
  | _, [] => []
  | idx, n :: rest =>
      { id := n.id
        cluster_id := n.cluster_id
        key := k
        pos := placeNode clusterSize idx
        degree := deg n.id } :: placeMembers deg k clusterSize (idx + 1) rest

/-- Layout of one cluster: sort members by descending degree (stable), then
place them with `placeNode`. -/
def layoutCluster (deg : String → Nat) (k : Int) (members : List Node) :
    List FlowNode :=
  placeMembers deg k members.length 0
    (stableSortDesc (fun n => deg n.id) members)

/-- The full `flowNodes` list of `processGraphData`. -/
def flowNodes (data : GraphData) (f : Filters) : List FlowNode :=
  (clusterGroups data f).flatMap fun p =>
    layoutCluster (connCount (visibleEdges data f)) p.1 p.2

/-- Absolute x coordinate of a local position, given the cluster centre's x. -/
noncomputable def posX (cx : ℝ) : LocalPos → ℝ
  | LocalPos.atCenter => cx
  | LocalPos.onRing r a => cx + (r : ℝ) * Real.cos ((a : ℝ) * Real.pi)

/-- Absolute y coordinate of a local position, given the cluster centre's y. -/
noncomputable def posY (cy : ℝ) : LocalPos → ℝ
  | LocalPos.atCenter => cy
  | LocalPos.onRing r a => cy + (r : ℝ) * Real.sin ((a : ℝ) * Real.pi)

/-! ## JavaScript string primitives

The connector resolver encodes a cluster pair as the string
`[a, b].sort((x, y) => x - y).join('-')` and later decodes it with
`pair.split('-').map(Number)`.  We model JS strings as `List Char` and the
three primitives exactly. -/

/-- The decimal digit character for `d < 10`. -/
def digitChar (d : Nat) : Char :=
  Char.ofNat (48 + d)

/-- The decimal digits of `n`, least significant first (empty for 0). -/
def natToRevDigits : Nat → List Nat
  | 0 => []
  | n + 1 => ((n + 1) % 10) :: natToRevDigits ((n + 1) / 10)
decreasing_by exact Nat.div_lt_self (Nat.succ_pos n) (by omega)

/-- JS `Number.prototype.toString` for a natural number. -/
def natToChars (n : Nat) : List Char :=
  if n = 0 then ['0'] else ((natToRevDigits n).reverse.map digitChar)

/-- JS `Number.prototype.toString` for an integer (minus sign prefix). -/
def intToChars (i : Int) : List Char :=
  if i < 0 then '-' :: natToChars i.natAbs else natToChars i.toNat

/-- Value of a decimal digit string under JS `Number`: `Number('') = 0` and
`Number('123') = 123` are both `foldl (acc*10 + digit) 0`. -/
def digitsVal (s : List Char) : Nat :=
  s.foldl (fun acc c => acc * 10 + (c.toNat - 48)) 0

/-- JS `Number` on the (digit-only) fragments produced by `split('-')`,
as an integer. -/
def jsNum (s : List Char) : Int :=
  (digitsVal s : Int)

/-- Accumulator version of `split('-')`. -/
def splitMinusAux : List Char → List Char → List (List Char)
  | [], cur => [cur.reverse]
  | c :: rest, cur =>
      if c = '-' then cur.reverse :: splitMinusAux rest []
      else splitMinusAux rest (c :: cur)

/-- JS `String.prototype.split('-')`. -/
def splitMinus (s : List Char) : List (List Char) :=
  splitMinusAux s []

/-! ## Connector resolver -/

/-- `nodeClusterMap`: built by `flowNodes.forEach(n => map[n.id] =
n.data.cluster_id)`, so the last flow node with a given id wins; a stored
`undefined` and an absent key are indistinguishable to the
`!== undefined` guard, hence the `Option.bind`. -/
def nodeClusterMap (flow : List FlowNode) (i : String) : Option Int :=
  (flow.reverse.find? fun fn => fn.id = i).bind FlowNode.cluster_id

/-- The textual key of a crossing pair:
`[srcCluster, tgtCluster].sort((a, b) => a - b).join('-')`. -/
def pairKey (a b : Int) : List Char :=
  intToChars (min a b) ++ '-' :: intToChars (max a b)

/-- Loop body of the `connectedClusters` construction: record the pair key
of an edge whose endpoints have defined, different cluster ids. -/
def crossStep (flow : List FlowNode) (acc : List (List Char)) (e : Edge) :
    List (List Char) :=
  match nodeClusterMap flow e.source, nodeClusterMap flow e.target with
  | some a, some b => if a ≠ b then insertDistinct acc (pairKey a b) else acc
  | _, _ => acc

/-- `connectedClusters`: the set (insertion-ordered, deduplicated) of pair
keys of visible edges whose endpoints have defined, different cluster ids. -/
def crossPairs (flow : List FlowNode) (es : List Edge) : List (List Char) :=
  es.foldl (crossStep flow) []

/-- `clusterNodes.reduce((best, node) => countB > countA ? node : best,
clusterNodes[0])`: with an initial value, JS `reduce` visits every element,
replacing `best` only on strictly larger degree. -/
def reduceHub (deg : String → Nat) (members : List Node) : Option Node :=
  match members with
  | [] => none
  | m0 :: _ =>
      some (members.foldl
        (fun best n => if deg best.id < deg n.id then n else best) m0)

/-- `clusterCenters[clusterId] = centerNode.id.toString()` for every
non-empty cluster group. -/
def clusterCenters (groups : List (Int × List Node)) (deg : String → Nat)
    (c : Int) : Option String :=
  (groups.find? fun p => p.1 = c).bind fun p => (reduceHub deg p.2).map Node.id

/-- A synthesized cluster-connector edge: the decoded cluster pair
(`data.clusters: [c1, c2]`) and the two hub ids (`source`/`target`). -/
structure Connector where
  c1 : Int
  c2 : Int
  src : String
  tgt : String
deriving DecidableEq, Repr

/-- The `connectedClusters.forEach` loop: decode each pair key with
`pair.split('-').map(Number)` (destructuring the first two parts), look up
both hubs, and push a connector when both lookups give truthy (non-empty)
strings. -/
def connectorEdges (groups : List (Int × List Node)) (deg : String → Nat)
    (flow : List FlowNode) (es : List Edge) : List Connector :=
  (crossPairs flow es).filterMap fun key =>
    let parts := splitMinus key
    let c1 := jsNum (parts.getD 0 [])
    let c2 := jsNum (parts.getD 1 [])
    match clusterCenters groups deg c1, clusterCenters groups deg c2 with
    | some s1, some s2 =>
        if s1 ≠ "" ∧ s2 ≠ "" then some ⟨c1, c2, s1, s2⟩ else none
    | _, _ => none

/-- Loop body of `specCrossingPairs`. -/
def specStep (vns : List Node) (acc : List (Int × Int)) (e : Edge) :
    List (Int × Int) :=
  match vns.find? (fun n => n.id = e.source),
        vns.find? (fun n => n.id = e.target) with
  | some ns, some nt =>
      if groupKey ns ≠ groupKey nt then
        insertDistinct acc (min (groupKey ns) (groupKey nt),
          max (groupKey ns) (groupKey nt))
      else acc
  | _, _ => acc

/-- Modelled from the spec (§4.5): the distinct unordered cluster-id pairs
having at least one crossing edge among the visible edges, each endpoint's
cluster taken from the (unique) visible node carrying that id, with the
spec's partitioning rule `groupKey` (missing id ↦ −1).  This is the
quantity the connector count is compared against. -/
def specCrossingPairs (vns : List Node) (es : List Edge) : List (Int × Int) :=
  es.foldl (specStep vns) []

/-- The hub id of cluster `c` in the full pipeline (the entry of
`clusterCenters`). -/
def hubId (data : GraphData) (f : Filters) (c : Int) : Option String :=
  clusterCenters (clusterGroups data f) (connCount (visibleEdges data f)) c

/-! ## Top-level entry points -/

/-- The layout produced by one run of `processGraphData` on well-formed
input: the positioned nodes and the synthesized connector edges. -/
structure LayoutResult where
  nodes : List FlowNode
  connectors : List Connector
deriving DecidableEq, Repr

/-- The full pipeline on a well-formed snapshot. -/
def computeLayout (data : GraphData) (f : Filters) : LayoutResult :=
  { nodes := flowNodes data f
    connectors :=
      connectorEdges (clusterGroups data f) (connCount (visibleEdges data f))
        (flowNodes data f) (visibleEdges data f) }

/-- The guarded entry `processGraphData`:
`if (!data || !data.nodes || !data.edges) return` — on malformed input the
callback returns early without touching the previously rendered state
`prev`; otherwise it replaces it with the fresh layout. -/
def processUpdate (prev : LayoutResult) (data : Option RawData)
    (f : Filters) : LayoutResult :=
  match data with
  | none => prev
  | some d =>
      match d.nodes, d.edges with
      | some ns, some es => computeLayout ⟨ns, es⟩ f
      | _, _ => prev

/-! ## The simple (non-clustered) layout of the first Network page

Its `processGraphData` filters identically and then places the `index`-th
visible node at `x = (index % 8) * 220 + Math.random() * 50`,
`y = Math.floor(index / 8) * 180 + Math.random() * 50`.  The two
`Math.random()` calls are modelled by an explicit stream `rand : ℕ → ℚ` of
values in `[0, 1)`, consumed two per node. -/

/-- Position of the `idx`-th visible node given its two jitter samples. -/
def simpleNodePos (idx : Nat) (r1 r2 : ℚ) : ℚ × ℚ :=
  (((idx % 8 : Nat) : ℚ) * 220 + r1 * 50,
   ((idx / 8 : Nat) : ℚ) * 180 + r2 * 50)

/-- The `map((node, index) => …)` loop with the jitter stream. -/
def simplePositions (rand : Nat → ℚ) : Nat → List Node → List (String × ℚ × ℚ)
  | _, [] => []
  | i, n :: rest =>
      (n.id, simpleNodePos i (rand (2 * i)) (rand (2 * i + 1))) ::
        simplePositions rand (i + 1) rest

/-- The simple page's node layout. -/
def simpleLayout (rand : Nat → ℚ) (data : GraphData) (f : Filters) :
    List (String × ℚ × ℚ) :=
  simplePositions rand 0 (filteredNodes data f)

/-! ## Specification-side predicates -/

/-- `x` is the first element of `l` attaining the maximal key: everything
before it is strictly smaller, everything in `l` is no larger.  This is the
spec's "member with highest degree, ties broken by input order". -/
def IsFirstMax {α : Type} (key : α → Nat) (l : List α) (x : α) : Prop :=
  ∃ l1 l2, l = l1 ++ x :: l2 ∧ (∀ y ∈ l1, key y < key x) ∧
    ∀ y ∈ l, key y ≤ key x

/-- The position coincides with the cluster centre, whatever the centre. -/
def LocalPos.centerPinned : LocalPos → Prop
  | LocalPos.atCenter => True
  | LocalPos.onRing r a =>
      (r : ℝ) * Real.cos ((a : ℝ) * Real.pi) = 0 ∧
      (r : ℝ) * Real.sin ((a : ℝ) * Real.pi) = 0

/-! ## Concrete inputs for the spec's scenarios -/

/-- The all-pass filter configuration of a freshly opened page. -/
def filterNone : Filters := ⟨false, 0, none⟩

/-- Scenario A: three nodes in cluster 0; `a` has degree 2, `b`, `c`
degree 1. -/
def dataA : GraphData :=
  { nodes := [⟨"a", 50, false, some 0⟩, ⟨"b", 50, false, some 0⟩,
              ⟨"c", 50, false, some 0⟩]
    edges := [⟨"a", "b", false⟩, ⟨"a", "c", false⟩] }

/-- Node of risk score 75 for scenario C. -/
def nodeY : Node := ⟨"y", 75, false, none⟩

/-- Scenario C: nodes scoring 10, 75 and 90. -/
def scenarioC : GraphData :=
  { nodes := [⟨"x", 10, false, none⟩, nodeY, ⟨"z", 90, false, none⟩]
    edges := [] }

/-- The filter of scenario C: minimum risk score 70. -/
def filter70 : Filters := ⟨false, 70, none⟩

/-- A single node with a self-loop. -/
def dataSelf : GraphData :=
  { nodes := [⟨"a", 50, false, some 0⟩], edges := [⟨"a", "a", false⟩] }

/-- A crossing edge between cluster −1 and cluster 3. -/
def dataNeg : GraphData :=
  { nodes := [⟨"a", 50, false, some (-1)⟩, ⟨"b", 50, false, some 3⟩]
    edges := [⟨"a", "b", false⟩] }

/-- A crossing edge between cluster 0 and cluster 3. -/
def dataPos : GraphData :=
  { nodes := [⟨"a", 50, false, some 0⟩, ⟨"b", 50, false, some 3⟩]
    edges := [⟨"a", "b", false⟩] }

/-- A non-empty previously rendered layout state. -/
def prevLayout : LayoutResult :=
  { nodes := [⟨"a", some 0, 0, LocalPos.atCenter, 2⟩], connectors := [] }

/-- The layout of an empty graph. -/
def emptyLayout : LayoutResult := ⟨[], []⟩

/-! ## Lemmas: deduplicating insertion -/

theorem mem_insertDistinct {α : Type} [DecidableEq α] (acc : List α) (k a : α) :
    a ∈ insertDistinct acc k ↔ a ∈ acc ∨ a = k := by
  unfold insertDistinct
  by_cases h : k ∈ acc
  · simp only [h, if_true]
    constructor
    · exact Or.inl
    · rintro (ha | rfl)
      · exact ha
      · exact h
  · simp [h]

theorem nodup_insertDistinct {α : Type} [DecidableEq α] {acc : List α}
    (h : acc.Nodup) (k : α) : (insertDistinct acc k).Nodup := by
  unfold insertDistinct
  by_cases hk : k ∈ acc
  · simpa [hk]
  · simp [List.nodup_append, h, hk]

theorem mem_foldl_insertDistinct {α β : Type} [DecidableEq α] (g : β → α) :
    ∀ (l : List β) (acc : List α) (a : α),
      a ∈ l.foldl (fun acc n => insertDistinct acc (g n)) acc ↔
        a ∈ acc ∨ ∃ n ∈ l, g n = a := by
  intro l
  induction l with
  | nil => simp
  | cons x xs ih =>
      intro acc a
      simp only [List.foldl_cons, ih, mem_insertDistinct, List.mem_cons]
      constructor
      · rintro ((ha | rfl) | hx)
        · exact Or.inl ha
        · exact Or.inr ⟨x, Or.inl rfl, rfl⟩
        · obtain ⟨n, hn, hg⟩ := hx
          exact Or.inr ⟨n, Or.inr hn, hg⟩
      · rintro (ha | ⟨n, (rfl | hn), hg⟩)
        · exact Or.inl (Or.inl ha)
        · exact Or.inl (Or.inr hg.symm)
        · exact Or.inr ⟨n, hn, hg⟩

theorem nodup_foldl_insertDistinct {α β : Type} [DecidableEq α] (g : β → α) :
    ∀ (l : List β) (acc : List α), acc.Nodup →
      (l.foldl (fun acc n => insertDistinct acc (g n)) acc).Nodup := by
  intro l
  induction l with
  | nil => intro acc h; simpa
  | cons x xs ih =>
      intro acc h
      exact ih _ (nodup_insertDistinct h _)

theorem mem_distinctKeys (ns : List Node) (k : Int) :
    k ∈ distinctKeys ns ↔ ∃ n ∈ ns, groupKey n = k := by
  unfold distinctKeys
  rw [mem_foldl_insertDistinct]
  simp

theorem nodup_distinctKeys (ns : List Node) : (distinctKeys ns).Nodup :=
  nodup_foldl_insertDistinct _ ns [] List.nodup_nil

/-! ## Lemmas: the two insertion sorts are permutations -/

theorem insAsc_perm (x : Int) (l : List Int) : (insAsc x l).Perm (x :: l) := by
  induction l with
  | nil => exact List.Perm.refl _
  | cons y ys ih =>
      unfold insAsc
      by_cases h : x ≤ y
      · simp only [h, if_true]
        exact List.Perm.refl _
      · simp only [h, if_false]
        exact (ih.cons y).trans (List.Perm.swap x y ys)

theorem sortAscInts_perm (l : List Int) : (sortAscInts l).Perm l := by
  induction l with
  | nil => exact List.Perm.refl _
  | cons k ks ih => exact (insAsc_perm k (sortAscInts ks)).trans (ih.cons k)

theorem entriesOrder_perm (ks : List Int) : (entriesOrder ks).Perm ks := by
  unfold entriesOrder
  refine ((sortAscInts_perm _).append (List.Perm.refl _)).trans ?_
  have hc : (ks.filter fun k => k < 0) =
      ks.filter fun k => !(decide (0 ≤ k)) := by
    apply List.filter_congr
    intro k _
    by_cases h : (0 : Int) ≤ k
    · simp [h, Int.not_lt.mpr h]
    · simp [h, Int.not_le.mp h]
  rw [hc]
  exact List.filter_append_perm _ ks

theorem insDesc_perm {α : Type} (key : α → Nat) (x : α) (l : List α) :
    (insDesc key x l).Perm (x :: l) := by
  induction l with
  | nil => exact List.Perm.refl _
  | cons y ys ih =>
      unfold insDesc
      by_cases h : key y ≤ key x
      · simp only [h, if_true]
        exact List.Perm.refl _
      · simp only [h, if_false]
        exact (ih.cons y).trans (List.Perm.swap x y ys)

theorem stableSortDesc_perm {α : Type} (key : α → Nat) (l : List α) :
    (stableSortDesc key l).Perm l := by
  induction l with
  | nil => exact List.Perm.refl _
  | cons x xs ih =>
      exact (insDesc_perm key x (stableSortDesc key xs)).trans (ih.cons x)

/-! ## Lemmas: first maximum

Both hub computations of the source — head of the stable descending sort,
and the strict-greater `reduce` scan — produce the first element of the
member list attaining the maximal degree. -/

theorem firstMax_unique_aux {α : Type} (key : α → Nat) :
    ∀ (l1 l1' : List α) (x x' : α) (l2 l2' : List α),
      l1 ++ x :: l2 = l1' ++ x' :: l2' →
      (∀ y ∈ l1, key y < key x) → (∀ y ∈ l1 ++ x :: l2, key y ≤ key x) →
      (∀ y ∈ l1', key y < key x') → (∀ y ∈ l1' ++ x' :: l2', key y ≤ key x') →
      x = x' := by
  intro l1
  induction l1 with
  | nil =>
      intro l1' x x' l2 l2' heq _ hle hlt' _
      cases l1' with
      | nil =>
          simp only [List.nil_append] at heq
          exact (List.cons.inj heq).1
      | cons a t' =>
          simp only [List.nil_append, List.cons_append] at heq
          obtain ⟨rfl, hrest⟩ := List.cons.inj heq
          have h1 : key x < key x' := hlt' x (List.mem_cons_self _ _)
          have h2 : key x' ≤ key x := by
            apply hle
            rw [List.nil_append, hrest]
            exact List.mem_cons_of_mem _ (by simp)
          omega
  | cons a t ih =>
      intro l1' x x' l2 l2' heq hlt hle hlt' hle'
      cases l1' with
      | nil =>
          simp only [List.nil_append, List.cons_append] at heq
          obtain ⟨rfl, hrest⟩ := List.cons.inj heq
          have h1 : key a < key x := hlt a (List.mem_cons_self _ _)
          have h2 : key x ≤ key a := by
            apply hle'
            rw [List.nil_append, ← hrest]
            exact List.mem_cons_of_mem _ (by simp)
          omega
      | cons a' t' =>
          simp only [List.cons_append] at heq
          obtain ⟨rfl, hrest⟩ := List.cons.inj heq
          refine ih t' x x' l2 l2' hrest
            (fun y hy => hlt y (List.mem_cons_of_mem _ hy))
            (fun y hy => hle y ?_)
            (fun y hy => hlt' y (List.mem_cons_of_mem _ hy))
            (fun y hy => hle' y ?_)
          · rw [List.cons_append]; exact List.mem_cons_of_mem _ hy
          · rw [List.cons_append]; exact List.mem_cons_of_mem _ hy

theorem IsFirstMax.unique {α : Type} {key : α → Nat} {l : List α} {x x' : α}
    (h : IsFirstMax key l x) (h' : IsFirstMax key l x') : x = x' := by
  obtain ⟨l1, l2, rfl, hlt, hle⟩ := h
  obtain ⟨l1', l2', heq, hlt', hle'⟩ := h'
  exact firstMax_unique_aux key l1 l1' x x' l2 l2' heq hlt hle hlt'
    (heq ▸ hle')

theorem insDesc_sorted {α : Type} (key : α → Nat) (x : α) :
    ∀ {l : List α}, l.Pairwise (fun a b => key b ≤ key a) →
      (insDesc key x l).Pairwise (fun a b => key b ≤ key a) := by
  intro l
  induction l with
  | nil => intro _; simp [insDesc]
  | cons y ys ih =>
      intro h
      rw [List.pairwise_cons] at h
      unfold insDesc
      by_cases hc : key y ≤ key x
      · simp only [hc, if_true]
        refine List.Pairwise.cons ?_ (List.Pairwise.cons h.1 h.2)
        intro z hz
        rcases List.mem_cons.mp hz with rfl | hz
        · exact hc
        · exact le_trans (h.1 z hz) hc
      · simp only [hc, if_false]
        refine List.Pairwise.cons ?_ (ih h.2)
        intro z hz
        have hz' := (insDesc_perm key x ys).mem_iff.mp hz
        rcases List.mem_cons.mp hz' with rfl | hz''
        · exact le_of_lt (Nat.lt_of_not_le hc)
        · exact h.1 z hz''

theorem stableSortDesc_sorted {α : Type} (key : α → Nat) (l : List α) :
    (stableSortDesc key l).Pairwise (fun a b => key b ≤ key a) := by
  induction l with
  | nil => simp [stableSortDesc]
  | cons x xs ih => exact insDesc_sorted key x ih

theorem stableSortDesc_head_firstMax {α : Type} (key : α → Nat) :
    ∀ (l : List α) (x : α), (stableSortDesc key l).head? = some x →
      IsFirstMax key l x := by
  intro l
  induction l with
  | nil => intro x h; simp [stableSortDesc] at h
  | cons a as ih =>
      intro x h
      have hunf : stableSortDesc key (a :: as) =
          insDesc key a (stableSortDesc key as) := rfl
      cases hs : stableSortDesc key as with
      | nil =>
          have has : as = [] := by
            have := stableSortDesc_perm key as
            rw [hs] at this
            exact this.symm.eq_nil
          subst has
          rw [hunf, hs] at h
          simp only [insDesc, List.head?_cons, Option.some.injEq] at h
          subst h
          exact ⟨[], [], rfl, by simp, by simp⟩
      | cons y ys =>
          rw [hunf, hs] at h
          have hsorted := stableSortDesc_sorted key as
          rw [hs, List.pairwise_cons] at hsorted
          unfold insDesc at h
          by_cases hc : key y ≤ key a
          · simp only [hc, if_true, List.head?_cons, Option.some.injEq] at h
            subst h
            refine ⟨[], as, rfl, by simp, ?_⟩
            intro z hz
            rcases List.mem_cons.mp hz with rfl | hz
            · exact le_refl _
            · have : z ∈ y :: ys := by
                rw [← hs]
                exact ((stableSortDesc_perm key as).mem_iff).mpr hz
              rcases List.mem_cons.mp this with rfl | hz'
              · exact hc
              · exact le_trans (hsorted.1 z hz') hc
          · simp only [hc, if_false, List.head?_cons, Option.some.injEq] at h
            rw [← h]
            have hy : IsFirstMax key as y := ih y (by rw [hs]; rfl)
            obtain ⟨l1, l2, heq, hlt, hle⟩ := hy
            refine ⟨a :: l1, l2, by rw [heq, List.cons_append], ?_, ?_⟩
            · intro z hz
              rcases List.mem_cons.mp hz with rfl | hz
              · exact Nat.lt_of_not_le hc
              · exact hlt z hz
            · intro z hz
              rcases List.mem_cons.mp hz with rfl | hz
              · exact le_of_lt (Nat.lt_of_not_le hc)
              · exact hle z hz

theorem foldl_hub_spec {α : Type} (key : α → Nat) :
    ∀ (l : List α) (b : α),
      (l.foldl (fun best n => if key best < key n then n else best) b = b ∧
        ∀ y ∈ l, key y ≤ key b) ∨
      (∃ l1 r l2, l = l1 ++ r :: l2 ∧
        l.foldl (fun best n => if key best < key n then n else best) b = r ∧
        key b < key r ∧ (∀ y ∈ l1, key y < key r) ∧
        ∀ y ∈ l2, key y ≤ key r) := by
  intro l
  induction l with
  | nil => intro b; left; simp
  | cons a as ih =>
      intro b
      simp only [List.foldl_cons]
      by_cases hc : key b < key a
      · simp only [hc, if_true]
        rcases ih a with ⟨heq, hall⟩ | ⟨l1, r, l2, heq, hfold, hlt, hl1, hl2⟩
        · right
          exact ⟨[], a, as, rfl, heq, hc, by simp, hall⟩
        · right
          refine ⟨a :: l1, r, l2, by rw [heq, List.cons_append], hfold,
            lt_trans hc hlt, ?_, hl2⟩
          intro y hy
          rcases List.mem_cons.mp hy with rfl | hy
          · exact hlt
          · exact hl1 y hy
      · simp only [hc, if_false]
        have ha : key a ≤ key b := Nat.le_of_not_lt hc
        rcases ih b with ⟨heq, hall⟩ | ⟨l1, r, l2, heq, hfold, hlt, hl1, hl2⟩
        · left
          refine ⟨heq, ?_⟩
          intro y hy
          rcases List.mem_cons.mp hy with rfl | hy
          · exact ha
          · exact hall y hy
        · right
          refine ⟨a :: l1, r, l2, by rw [heq, List.cons_append], hfold, hlt,
            ?_, hl2⟩
          intro y hy
          rcases List.mem_cons.mp hy with rfl | hy
          · exact lt_of_le_of_lt ha hlt
          · exact hl1 y hy

theorem reduceHub_spec (deg : String → Nat) (members : List Node)
    (h : members ≠ []) :
    ∃ x, reduceHub deg members = some x ∧
      IsFirstMax (fun n => deg n.id) members x := by
  cases members with
  | nil => exact absurd rfl h
  | cons m0 rest =>
      have hstep :
          (m0 :: rest).foldl
            (fun best n => if deg best.id < deg n.id then n else best) m0 =
          rest.foldl
            (fun best n => if deg best.id < deg n.id then n else best) m0 := by
        simp only [List.foldl_cons, lt_irrefl, if_false]
      rcases foldl_hub_spec (fun n : Node => deg n.id) rest m0 with
        ⟨heq, hall⟩ | ⟨l1, r, l2, heq, hfold, hlt, hl1, hl2⟩
      · refine ⟨m0, ?_, [], rest, rfl, by simp, ?_⟩
        · show some _ = some m0
          rw [hstep, heq]
        · intro y hy
          rcases List.mem_cons.mp hy with rfl | hy
          · exact le_refl _
          · exact hall y hy
      · refine ⟨r, ?_, m0 :: l1, l2, by rw [heq, List.cons_append], ?_, ?_⟩
        · show some _ = some r
          rw [hstep, hfold]
        · intro y hy
          rcases List.mem_cons.mp hy with rfl | hy
          · exact hlt
          · exact hl1 y hy
        · intro y hy
          rcases List.mem_cons.mp hy with rfl | hy
          · exact le_of_lt hlt
          · rw [heq] at hy
            rcases List.mem_append.mp hy with hy | hy
            · exact le_of_lt (hl1 y hy)
            · rcases List.mem_cons.mp hy with rfl | hy
              · exact le_refl _
              · exact hl2 y hy

/-! ## Lemmas: ring placement -/

/-- The divisor of the angular placement is positive for every index of a
cluster's member list — the arithmetic never divides by zero. -/
theorem nodesInRingOf_pos (size idx : Nat) (h : idx < size) :
    0 < nodesInRingOf size idx := by
  unfold nodesInRingOf
  rw [Int.fdiv_eq_ediv _ (by norm_num : (0:Int) ≤ 8)]
  omega

/-- The first sorted member of a multi-node cluster sits exactly at the
cluster centre. -/
theorem placeNode_zero_of_lt {size : Nat} (h : 1 < size) :
    placeNode size 0 = LocalPos.atCenter := by
  unfold placeNode
  simp [h]

/-- The single member of a singleton cluster lands on a ring of radius 0
(ring index 0), i.e. also exactly at the centre. -/
theorem placeNode_single : placeNode 1 0 = LocalPos.onRing 0 (-(1/4) : ℚ) := by
  have hf : Int.fdiv (-1 : Int) 8 = -1 := by decide
  have ht : Int.tmod (-1 : Int) 8 = -1 := by decide
  have ht2 : Int.tmod (0 : Int) 2 = 0 := by decide
  unfold placeNode nodesInRingOf
  norm_num [hf, ht, ht2]

/-- A non-head member is placed on a ring of radius at least 60. -/
theorem placeNode_succ_eq (size j : Nat) :
    ∃ r a : ℚ, placeNode size (j + 1) = LocalPos.onRing r a ∧ 60 ≤ r := by
  unfold placeNode
  simp only [Nat.succ_ne_zero, false_and, if_false]
  refine ⟨_, _, rfl, ?_⟩
  have hcast : ((j + 1 : Nat) : Int) - 1 = (j : Int) := by push_cast; ring
  rw [hcast, Int.fdiv_eq_ediv _ (by norm_num : (0:Int) ≤ 8)]
  have hring : (1 : Int) ≤ (j : Int) / 8 + 1 := by omega
  have hq : (1 : ℚ) ≤ (((j : Int) / 8 + 1 : Int) : ℚ) := by exact_mod_cast hring
  nlinarith

theorem centerPinned_iff (p : LocalPos) :
    p.centerPinned ↔ ∀ cx cy : ℝ, posX cx p = cx ∧ posY cy p = cy := by
  cases p with
  | atCenter => simp [LocalPos.centerPinned, posX, posY]
  | onRing r a =>
      simp only [LocalPos.centerPinned, posX, posY]
      constructor
      · rintro ⟨h1, h2⟩ cx cy
        rw [h1, h2]
        simp
      · intro h
        have h0 := h 0 0
        constructor <;> linarith [h0.1, h0.2]

theorem placeNode_zero_pinned {size : Nat} (hs : 0 < size) :
    (placeNode size 0).centerPinned := by
  rcases Nat.lt_or_ge 1 size with h | h
  · rw [placeNode_zero_of_lt h]
    trivial
  · have hsize : size = 1 := by omega
    subst hsize
    rw [placeNode_single]
    constructor <;> simp

theorem placeNode_succ_not_pinned (size j : Nat) :
    ¬ (placeNode size (j + 1)).centerPinned := by
  obtain ⟨r, a, heq, hr⟩ := placeNode_succ_eq size j
  rw [heq]
  rintro ⟨h1, h2⟩
  have hrne : (r : ℝ) ≠ 0 := by
    have : (60 : ℝ) ≤ (r : ℝ) := by exact_mod_cast hr
    linarith
  have hcos : Real.cos ((a : ℝ) * Real.pi) = 0 :=
    (mul_eq_zero.mp h1).resolve_left hrne
  have hsin : Real.sin ((a : ℝ) * Real.pi) = 0 :=
    (mul_eq_zero.mp h2).resolve_left hrne
  have := Real.sin_sq_add_cos_sq ((a : ℝ) * Real.pi)
  rw [hsin, hcos] at this
  norm_num at this

/-! ## Lemmas: cluster layout structure -/

theorem placeMembers_map_id (deg : String → Nat) (k : Int) (s : Nat) :
    ∀ (l : List Node) (i : Nat),
      (placeMembers deg k s i l).map FlowNode.id = l.map Node.id := by
  intro l
  induction l with
  | nil => intro i; rfl
  | cons n rest ih =>
      intro i
      simp only [placeMembers, List.map_cons, ih]

theorem mem_placeMembers (deg : String → Nat) (k : Int) (s : Nat) :
    ∀ (l : List Node) (i : Nat) (fn : FlowNode), fn ∈ placeMembers deg k s i l →
      ∃ (j : Nat) (hj : j < l.length),
        fn = { id := (l.get ⟨j, hj⟩).id
               cluster_id := (l.get ⟨j, hj⟩).cluster_id
               key := k
               pos := placeNode s (i + j)
               degree := deg (l.get ⟨j, hj⟩).id } := by
  intro l
  induction l with
  | nil => intro i fn h; simp [placeMembers] at h
  | cons n rest ih =>
      intro i fn h
      rcases List.mem_cons.mp h with rfl | h
      · exact ⟨0, by simp, by simp⟩
      · obtain ⟨j, hj, heq⟩ := ih (i + 1) fn h
        refine ⟨j + 1, by simpa [Nat.succ_lt_succ_iff] using hj, ?_⟩
        rw [heq]
        have harith : i + 1 + j = i + (j + 1) := by omega
        simp [List.get_cons_succ, harith]

theorem clusterGroups_mem (data : GraphData) (f : Filters) {p : Int × List Node}
    (hp : p ∈ clusterGroups data f) :
    p.2 = (filteredNodes data f).filter (fun n => groupKey n = p.1) ∧
      p.1 ∈ distinctKeys (filteredNodes data f) := by
  unfold clusterGroups at hp
  rcases List.mem_map.mp hp with ⟨k, hk, heq⟩
  constructor
  · rw [← heq]
  · rw [← heq]
    exact (entriesOrder_perm _).mem_iff.mp hk

theorem clusterGroups_keys (data : GraphData) (f : Filters) :
    (clusterGroups data f).map Prod.fst =
      entriesOrder (distinctKeys (filteredNodes data f)) := by
  unfold clusterGroups
  rw [List.map_map]
  exact List.map_id' _

theorem clusterGroups_keys_nodup (data : GraphData) (f : Filters) :
    ((clusterGroups data f).map Prod.fst).Nodup := by
  rw [clusterGroups_keys]
  exact (entriesOrder_perm _).symm.nodup (nodup_distinctKeys _)

theorem flatMap_congr_mem {α β : Type} {l : List α} {f g : α → List β}
    (h : ∀ a ∈ l, f a = g a) : l.flatMap f = l.flatMap g := by
  induction l with
  | nil => rfl
  | cons a t ih =>
      rw [List.flatMap_cons, List.flatMap_cons, h a (List.mem_cons_self _ _),
        ih fun b hb => h b (List.mem_cons_of_mem _ hb)]

theorem flatMap_map_comp {α β γ : Type} (g : α → β) (F : β → List γ) :
    ∀ l : List α, (l.map g).flatMap F = l.flatMap fun a => F (g a) := by
  intro l
  induction l with
  | nil => rfl
  | cons a t ih => simp [List.flatMap_cons, ih]

/-- Joining the per-key filters of a list whose keys all lie in a
duplicate-free key list recovers the list up to permutation. -/
theorem flatMap_filter_key_perm {α : Type} (key : α → Int) :
    ∀ (ks : List Int) (l : List α), ks.Nodup → (∀ x ∈ l, key x ∈ ks) →
      (ks.flatMap fun k => l.filter fun x => key x = k).Perm l := by
  intro ks
  induction ks with
  | nil =>
      intro l _ hcov
      have : l = [] := by
        cases l with
        | nil => rfl
        | cons a t => exact absurd (hcov a (List.mem_cons_self _ _)) (by simp)
      simp [this]
  | cons k ks ih =>
      intro l hnd hcov
      rw [List.nodup_cons] at hnd
      rw [List.flatMap_cons]
      have hstep : ∀ k' ∈ ks,
          l.filter (fun x => key x = k') =
            (l.filter fun x => !(key x = k)).filter fun x => key x = k' := by
        intro k' hk'
        rw [List.filter_filter]
        apply List.filter_congr
        intro x _
        by_cases h : key x = k'
        · have hkk : k' ≠ k := fun hc => hnd.1 (hc ▸ hk')
          have hne : ¬ (key x = k) := fun hc => hkk (h ▸ hc)
          simp [h, hne, hkk]
        · simp [h]
      have hcov' : ∀ x ∈ l.filter (fun x => !(key x = k)), key x ∈ ks := by
        intro x hx
        rw [List.mem_filter] at hx
        rcases List.mem_cons.mp (hcov x hx.1) with hc | hc
        · exfalso
          have hb := hx.2
          simp [hc] at hb
        · exact hc
      have hjoin :
          (ks.flatMap fun k' => l.filter fun x => key x = k').Perm
            (l.filter fun x => !(key x = k)) := by
        rw [flatMap_congr_mem hstep]
        exact ih (l.filter fun x => !(key x = k)) hnd.2 hcov'
      exact (List.Perm.append_left _ hjoin).trans (List.filter_append_perm _ l)

theorem layoutCluster_map_id (deg : String → Nat) (k : Int)
    (members : List Node) :
    ((layoutCluster deg k members).map FlowNode.id).Perm
      (members.map Node.id) := by
  unfold layoutCluster
  rw [placeMembers_map_id]
  exact (stableSortDesc_perm _ members).map Node.id

theorem flowNodes_ids_perm (data : GraphData) (f : Filters) :
    ((flowNodes data f).map FlowNode.id).Perm
      ((filteredNodes data f).map Node.id) := by
  unfold flowNodes
  rw [List.map_flatMap]
  have h1 : ((clusterGroups data f).flatMap fun p =>
      (layoutCluster (connCount (visibleEdges data f)) p.1 p.2).map
        FlowNode.id).Perm
      ((clusterGroups data f).flatMap fun p => p.2.map Node.id) := by
    induction (clusterGroups data f) with
    | nil => exact List.Perm.refl _
    | cons p ps ih =>
        rw [List.flatMap_cons, List.flatMap_cons]
        exact (layoutCluster_map_id _ p.1 p.2).append ih
  refine h1.trans ?_
  unfold clusterGroups
  rw [flatMap_map_comp]
  show ((entriesOrder (distinctKeys (filteredNodes data f))).flatMap
      fun k => ((filteredNodes data f).filter fun n => groupKey n = k).map
        Node.id).Perm ((filteredNodes data f).map Node.id)
  rw [← List.map_flatMap]
  refine List.Perm.map Node.id ?_
  apply flatMap_filter_key_perm
  · exact (entriesOrder_perm _).symm.nodup (nodup_distinctKeys _)
  · intro x hx
    rw [(entriesOrder_perm _).mem_iff, mem_distinctKeys]
    exact ⟨x, hx, rfl⟩

theorem mem_flowNodes (data : GraphData) (f : Filters) {fn : FlowNode}
    (h : fn ∈ flowNodes data f) :
    ∃ n ∈ filteredNodes data f, fn.id = n.id ∧ fn.cluster_id = n.cluster_id ∧
      fn.key = groupKey n ∧
      fn.degree = connCount (visibleEdges data f) n.id := by
  unfold flowNodes at h
  rcases List.mem_flatMap.mp h with ⟨p, hp, hfn⟩
  obtain ⟨hmem, _⟩ := clusterGroups_mem data f hp
  unfold layoutCluster at hfn
  obtain ⟨j, hj, heq⟩ := mem_placeMembers _ _ _ _ _ _ hfn
  set sorted :=
    stableSortDesc (fun n => connCount (visibleEdges data f) n.id) p.2 with hsdef
  have hget : sorted.get ⟨j, hj⟩ ∈ sorted := List.get_mem _ _ _
  have hmem2 : sorted.get ⟨j, hj⟩ ∈ p.2 :=
    (stableSortDesc_perm _ _).mem_iff.mp hget
  rw [hmem] at hmem2
  have hmem3 := List.mem_filter.mp hmem2
  refine ⟨sorted.get ⟨j, hj⟩, hmem3.1, ?_, ?_, ?_, ?_⟩ <;> rw [heq]
  have := hmem3.2
  simp only [decide_eq_true_eq] at this
  exact this.symm

theorem mem_flowNodes_key (data : GraphData) (f : Filters) {fn : FlowNode}
    (h : fn ∈ flowNodes data f) :
    fn ∈ layoutCluster (connCount (visibleEdges data f)) fn.key
      ((filteredNodes data f).filter fun n => groupKey n = fn.key) := by
  unfold flowNodes at h
  rcases List.mem_flatMap.mp h with ⟨p, hp, hfn⟩
  obtain ⟨hmem, _⟩ := clusterGroups_mem data f hp
  have hkey : fn.key = p.1 := by
    unfold layoutCluster at hfn
    obtain ⟨j, hj, heq⟩ := mem_placeMembers _ _ _ _ _ _ hfn
    rw [heq]
  rw [hkey, ← hmem]
  exact hfn

theorem layoutCluster_head (deg : String → Nat) (k : Int)
    (members : List Node) (h : members ≠ []) :
    ∃ hub rest, stableSortDesc (fun n => deg n.id) members = hub :: rest ∧
      layoutCluster deg k members =
        { id := hub.id, cluster_id := hub.cluster_id, key := k,
          pos := placeNode members.length 0, degree := deg hub.id } ::
          placeMembers deg k members.length 1 rest := by
  cases hs : stableSortDesc (fun n => deg n.id) members with
  | nil =>
      exfalso
      have hperm := stableSortDesc_perm (fun n => deg n.id) members
      rw [hs] at hperm
      exact h hperm.symm.eq_nil
  | cons hub rest =>
      refine ⟨hub, rest, rfl, ?_⟩
      unfold layoutCluster
      rw [hs]
      rfl

/-! ## Claim theorems -/

/-- C1: every node surviving filtering appears exactly once as a key of the
layout output (the output ids are a permutation of the visible ids, and are
duplicate-free whenever the input ids are), and the ring-placement divisor
`nodesInRing` is non-zero for every index of a cluster's sorted member list
— over the exact arithmetic of the model this is precisely the absence of
`NaN`/undefined coordinates. -/
theorem layout_complete_and_finite (data : GraphData) (f : Filters) :
    ((flowNodes data f).map FlowNode.id).Perm
      ((filteredNodes data f).map Node.id) ∧
    (((filteredNodes data f).map Node.id).Nodup →
      ((flowNodes data f).map FlowNode.id).Nodup) ∧
    ∀ size idx : Nat, idx < size → nodesInRingOf size idx ≠ 0 := by
  refine ⟨flowNodes_ids_perm data f, ?_, ?_⟩
  · intro h
    exact ((flowNodes_ids_perm data f).symm.nodup) h
  · intro size idx h
    exact ne_of_gt (nodesInRingOf_pos size idx h)

/-- Witness for C1 at scenario A's graph. -/
theorem layout_complete_and_finite_witness :
    ((flowNodes dataA filterNone).map FlowNode.id).Nodup ∧
    nodesInRingOf 3 1 ≠ 0 :=
  ⟨(layout_complete_and_finite dataA filterNone).2.1 (by decide),
   (layout_complete_and_finite dataA filterNone).2.2 3 1 (by decide)⟩

/-- C4: in every non-empty cluster, the member placed exactly at the
cluster centre is the first member (in input order) of maximal degree, and
no other member of the cluster is placed at the centre. -/
theorem hub_has_max_degree (data : GraphData) (f : Filters)
    (k : Int) (members : List Node)
    (hmem : (k, members) ∈ clusterGroups data f) (hne : members ≠ []) :
    ∃ fn ∈ flowNodes data f, fn.key = k ∧ fn.pos.centerPinned ∧
      (∃ n ∈ members, fn.id = n.id ∧
        IsFirstMax (fun m => connCount (visibleEdges data f) m.id) members n) ∧
      ∀ fn' ∈ flowNodes data f, fn'.key = k → fn'.pos.centerPinned →
        fn'.id = fn.id := by
  obtain ⟨hub, rest, hs, hlc⟩ :=
    layoutCluster_head (connCount (visibleEdges data f)) k members hne
  have hmembers : members =
      (filteredNodes data f).filter fun n => groupKey n = k :=
    (clusterGroups_mem data f hmem).1
  have hlen : 0 < members.length := List.length_pos.mpr hne
  refine ⟨{ id := hub.id, cluster_id := hub.cluster_id, key := k,
            pos := placeNode members.length 0,
            degree := connCount (visibleEdges data f) hub.id },
    ?_, rfl, ?_, ⟨hub, ?_, rfl, ?_⟩, ?_⟩
  · unfold flowNodes
    refine List.mem_flatMap.mpr ⟨(k, members), hmem, ?_⟩
    rw [hlc]
    exact List.mem_cons_self _ _
  · exact placeNode_zero_pinned hlen
  · have : hub ∈ stableSortDesc
        (fun n => connCount (visibleEdges data f) n.id) members := by
      rw [hs]
      exact List.mem_cons_self _ _
    exact (stableSortDesc_perm _ _).mem_iff.mp this
  · exact stableSortDesc_head_firstMax _ members hub (by rw [hs]; rfl)
  · intro fn' hfn' hkey hpin
    have h1 := mem_flowNodes_key data f hfn'
    rw [hkey, ← hmembers] at h1
    unfold layoutCluster at h1
    obtain ⟨j, hj, heq⟩ := mem_placeMembers _ _ _ _ _ _ h1
    cases j with
    | zero =>
        rw [heq]
        have : (stableSortDesc
            (fun n => connCount (visibleEdges data f) n.id) members).get
            ⟨0, hj⟩ = hub := by
          simp [hs]
        rw [this]
    | succ j' =>
        exfalso
        rw [heq] at hpin
        have : (0 : Nat) + (j' + 1) = j' + 1 := by omega
        rw [this] at hpin
        exact placeNode_succ_not_pinned members.length j' hpin

/-- Witness for C4 at scenario A's graph (cluster 0, hub `a`). -/
theorem hub_has_max_degree_witness :
    ∃ fn ∈ flowNodes dataA filterNone, fn.key = 0 ∧ fn.pos.centerPinned ∧
      (∃ n ∈ (clusterGroups dataA filterNone).head!.2, fn.id = n.id ∧
        IsFirstMax
          (fun m => connCount (visibleEdges dataA filterNone) m.id)
          (clusterGroups dataA filterNone).head!.2 n) ∧
      ∀ fn' ∈ flowNodes dataA filterNone, fn'.key = 0 →
        fn'.pos.centerPinned → fn'.id = fn.id :=
  hub_has_max_degree dataA filterNone 0
    (clusterGroups dataA filterNone).head!.2 (by decide) (by decide)

/-- C8: the single member of a singleton cluster is placed exactly at the
cluster's centre. -/
theorem singleton_cluster_at_center (data : GraphData) (f : Filters)
    (k : Int) (n : Node) (hmem : (k, [n]) ∈ clusterGroups data f) :
    ∃ fn ∈ flowNodes data f, fn.id = n.id ∧ fn.key = k ∧
      ∀ cx cy : ℝ, posX cx fn.pos = cx ∧ posY cy fn.pos = cy := by
  have hlc : layoutCluster (connCount (visibleEdges data f)) k [n] =
      [{ id := n.id, cluster_id := n.cluster_id, key := k,
         pos := placeNode 1 0,
         degree := connCount (visibleEdges data f) n.id }] := rfl
  refine ⟨{ id := n.id, cluster_id := n.cluster_id, key := k,
            pos := placeNode 1 0,
            degree := connCount (visibleEdges data f) n.id },
    ?_, rfl, rfl, ?_⟩
  · unfold flowNodes
    refine List.mem_flatMap.mpr ⟨(k, [n]), hmem, ?_⟩
    rw [hlc]
    exact List.mem_cons_self _ _
  · exact (centerPinned_iff (placeNode 1 0)).mp
      (placeNode_zero_pinned (by norm_num))

/-- Witness for C8 at the self-loop graph (cluster 0 = {a}). -/
theorem singleton_cluster_at_center_witness :
    ∃ fn ∈ flowNodes dataSelf filterNone,
      fn.id = (⟨"a", 50, false, some 0⟩ : Node).id ∧ fn.key = 0 ∧
      ∀ cx cy : ℝ, posX cx fn.pos = cx ∧ posY cy fn.pos = cy :=
  singleton_cluster_at_center dataSelf filterNone 0
    ⟨"a", 50, false, some 0⟩ (by decide)

/-- C10: for every cluster with at least two members, the hub selected for
connector edges by the strict-greater `reduce` scan is exactly the node the
layout placed at the cluster centre (the head of the stable descending
sort). -/
theorem hub_computations_agree (data : GraphData) (f : Filters)
    (k : Int) (members : List Node)
    (hmem : (k, members) ∈ clusterGroups data f)
    (h2 : 2 ≤ members.length) :
    ∃ n, reduceHub (connCount (visibleEdges data f)) members = some n ∧
      ∃ fn ∈ flowNodes data f, fn.key = k ∧ fn.pos = LocalPos.atCenter ∧
        fn.id = n.id := by
  have hne : members ≠ [] := by
    intro h
    rw [h] at h2
    simp at h2
  obtain ⟨r, hr, hrmax⟩ :=
    reduceHub_spec (connCount (visibleEdges data f)) members hne
  obtain ⟨hub, rest, hs, hlc⟩ :=
    layoutCluster_head (connCount (visibleEdges data f)) k members hne
  have hhub : IsFirstMax (fun n => connCount (visibleEdges data f) n.id)
      members hub :=
    stableSortDesc_head_firstMax _ members hub (by rw [hs]; rfl)
  have hruniq : r = hub := hrmax.unique hhub
  refine ⟨r, hr, { id := hub.id, cluster_id := hub.cluster_id, key := k,
                   pos := placeNode members.length 0,
                   degree := connCount (visibleEdges data f) hub.id },
    ?_, rfl, ?_, ?_⟩
  · unfold flowNodes
    refine List.mem_flatMap.mpr ⟨(k, members), hmem, ?_⟩
    rw [hlc]
    exact List.mem_cons_self _ _
  · exact placeNode_zero_of_lt (by omega)
  · rw [hruniq]

/-- Witness for C10 at scenario A's graph. -/
theorem hub_computations_agree_witness :
    ∃ n, reduceHub (connCount (visibleEdges dataA filterNone))
        (clusterGroups dataA filterNone).head!.2 = some n ∧
      ∃ fn ∈ flowNodes dataA filterNone, fn.key = 0 ∧
        fn.pos = LocalPos.atCenter ∧ fn.id = n.id :=
  hub_computations_agree dataA filterNone 0
    (clusterGroups dataA filterNone).head!.2 (by decide) (by decide)

/-- C2: every visible node passes the risk, flagged-only and cluster
filters; the visible edges are exactly the input edges with both endpoints
visible; and scenario C (`minRiskScore = 70` on scores 10/75/90) keeps
exactly the nodes scoring 75 and 90. -/
theorem filter_contract (data : GraphData) (f : Filters) :
    (∀ n ∈ filteredNodes data f,
        f.minRiskScore ≤ n.risk_score ∧
        (f.showMuleOnly = true → n.mule_suspected = true) ∧
        ∀ c, f.cluster = some c → n.cluster_id = some c) ∧
    (∀ e, e ∈ visibleEdges data f ↔ e ∈ data.edges ∧
        e.source ∈ (filteredNodes data f).map Node.id ∧
        e.target ∈ (filteredNodes data f).map Node.id) ∧
    (filteredNodes scenarioC filter70).map Node.id = ["y", "z"] := by
  refine ⟨?_, ?_, by decide⟩
  · intro n hn
    rw [filteredNodes, List.mem_filter] at hn
    obtain ⟨-, hp⟩ := hn
    simp only [Bool.and_eq_true] at hp
    obtain ⟨⟨h1, h2⟩, h3⟩ := hp
    refine ⟨?_, ?_, ?_⟩
    · simp only [Bool.not_eq_true', decide_eq_false_iff_not, not_lt] at h2
      exact h2
    · intro hm
      rw [hm] at h1
      simp only [Bool.true_and, Bool.not_not] at h1
      exact h1
    · intro c hc
      rw [hc] at h3
      simpa using h3
  · intro e
    rw [visibleEdges, List.mem_filter]
    simp [and_assoc]

/-- Witness for C2: node `y` of scenario C passes the filter, and the edge
`a → b` of scenario A is visible. -/
theorem filter_contract_witness :
    (filter70.minRiskScore ≤ nodeY.risk_score ∧
      (filter70.showMuleOnly = true → nodeY.mule_suspected = true) ∧
      ∀ c, filter70.cluster = some c → nodeY.cluster_id = some c) ∧
    (⟨"a", "b", false⟩ : Edge) ∈ visibleEdges dataA filterNone :=
  ⟨(filter_contract scenarioC filter70).1 nodeY (by decide),
   ((filter_contract dataA filterNone).2.1 ⟨"a", "b", false⟩).mpr (by decide)⟩

/-- C9 counterexample: on input missing the node collection the callback
returns early, leaving the previously rendered non-empty layout in place —
it does not yield an empty layout. -/
theorem malformed_input_counterexample :
    processUpdate prevLayout (some ⟨none, some []⟩) filterNone = prevLayout ∧
      prevLayout ≠ emptyLayout := by
  constructor
  · rfl
  · intro h
    cases h

/-- C9 amended: on missing input or a missing node/edge collection the
engine returns early with no new layout (the previous state is untouched)
and, being total, never throws. -/
theorem malformed_input_no_throw (prev : LayoutResult) (f : Filters) :
    processUpdate prev none f = prev ∧
    ∀ d : RawData, d.nodes = none ∨ d.edges = none →
      processUpdate prev (some d) f = prev := by
  refine ⟨rfl, ?_⟩
  intro d hd
  rcases hd with h | h <;>
    cases hds : d.nodes <;> cases hde : d.edges <;>
      simp_all [processUpdate]

/-- Witness for C9's amended claim at a concrete malformed input. -/
theorem malformed_input_no_throw_witness :
    processUpdate prevLayout (some ⟨none, some []⟩) filterNone =
      prevLayout :=
  (malformed_input_no_throw prevLayout filterNone).2 ⟨none, some []⟩
    (Or.inl rfl)

/-- C7 counterexample: a self-loop contributes 2 (not 1) to the incident
node's displayed degree. -/
theorem selfloop_degree_counterexample :
    (flowNodes dataSelf filterNone).map (fun fn => (fn.id, fn.degree)) =
      [("a", 2)] ∧ (2 : Nat) ≠ 1 := by
  constructor
  · decide
  · decide

theorem connCount_foldl_shift (i : String) :
    ∀ (es : List Edge) (a : Nat),
      es.foldl (fun acc e => acc + (if e.source = i then 1 else 0) +
        (if e.target = i then 1 else 0)) a =
      a + es.foldl (fun acc e => acc + (if e.source = i then 1 else 0) +
        (if e.target = i then 1 else 0)) 0 := by
  intro es
  induction es with
  | nil => intro a; simp
  | cons e t ih =>
      intro a
      rw [List.foldl_cons, List.foldl_cons, ih, ih
        (0 + (if e.source = i then 1 else 0) +
          (if e.target = i then 1 else 0))]
      omega

/-- C7 amended: the computed degree counts one per endpoint slot — the
number of visible edges touching the node plus one extra for each
self-loop at it; self-loops are handled totally, never a failure. -/
theorem degree_counts_incidences (es : List Edge) (i : String) :
    connCount es i =
      (es.filter fun e => e.source = i ∨ e.target = i).length +
      (es.filter fun e => e.source = i ∧ e.target = i).length := by
  induction es with
  | nil => rfl
  | cons e t ih =>
      have hc : connCount (e :: t) i =
          ((if e.source = i then 1 else 0) +
            (if e.target = i then 1 else 0)) + connCount t i := by
        unfold connCount
        rw [List.foldl_cons, connCount_foldl_shift i t]
        omega
      rw [hc, ih]
      by_cases hs : e.source = i <;> by_cases ht : e.target = i <;>
        simp [hs, ht, List.filter_cons] <;> omega

/-- C3: the simple network page's layout feeds `Math.random()` jitter into
every node position — two admissible jitter streams yield different
layouts for the same graph and filter, so repeated invocations are not
byte-identical. -/
theorem jitter_breaks_determinism :
    ∃ r1 r2 : Nat → ℚ,
      (∀ i, 0 ≤ r1 i ∧ r1 i < 1) ∧ (∀ i, 0 ≤ r2 i ∧ r2 i < 1) ∧
      simpleLayout r1 dataA filterNone ≠ simpleLayout r2 dataA filterNone := by
  refine ⟨fun _ => 0, fun _ => 1/2, fun i => by norm_num,
    fun i => by norm_num, ?_⟩
  have h1 : simpleLayout (fun _ => 0) dataA filterNone =
      [("a", 0, 0), ("b", 220, 0), ("c", 440, 0)] := by
    norm_num [simpleLayout, simplePositions, simpleNodePos, filteredNodes,
      dataA, filterNone]
  have h2 : simpleLayout (fun _ => 1/2) dataA filterNone =
      [("a", 25, 25), ("b", 245, 25), ("c", 465, 25)] := by
    norm_num [simpleLayout, simplePositions, simpleNodePos, filteredNodes,
      dataA, filterNone]
  rw [h1, h2]
  intro h
  have := (List.cons.inj h).1
  rw [Prod.ext_iff] at this
  have h0 := this.2
  rw [Prod.ext_iff] at h0
  norm_num at h0

theorem placeNode_three_one : placeNode 3 1 = LocalPos.onRing 60 (1/8) := by
  have hf : Int.fdiv (0 : Int) 8 = 0 := by decide
  have ht : Int.tmod (0 : Int) 8 = 0 := by decide
  have ht2 : Int.tmod (1 : Int) 2 = 1 := by decide
  have hmin : min (8 : Int) 2 = 2 := by decide
  unfold placeNode nodesInRingOf
  norm_num [hf, ht, ht2, hmin]

theorem placeNode_three_two : placeNode 3 2 = LocalPos.onRing 60 (9/8) := by
  have hf : Int.fdiv (1 : Int) 8 = 0 := by decide
  have ht : Int.tmod (1 : Int) 8 = 1 := by decide
  have ht2 : Int.tmod (1 : Int) 2 = 1 := by decide
  have hmin : min (8 : Int) 2 = 2 := by decide
  unfold placeNode nodesInRingOf
  norm_num [hf, ht, ht2, hmin]

/-- Full evaluation of the clustered layout on scenario A. -/
theorem flowNodes_dataA :
    flowNodes dataA filterNone =
      [⟨"a", some 0, 0, LocalPos.atCenter, 2⟩,
       ⟨"b", some 0, 0, LocalPos.onRing 60 (1/8), 1⟩,
       ⟨"c", some 0, 0, LocalPos.onRing 60 (9/8), 1⟩] := by
  have hg : clusterGroups dataA filterNone = [(0, dataA.nodes)] := by decide
  have hsort : stableSortDesc
      (fun n => connCount (visibleEdges dataA filterNone) n.id)
      dataA.nodes = dataA.nodes := by decide
  have hda : connCount (visibleEdges dataA filterNone) "a" = 2 := by decide
  have hdb : connCount (visibleEdges dataA filterNone) "b" = 1 := by decide
  have hdc : connCount (visibleEdges dataA filterNone) "c" = 1 := by decide
  have hp0 : placeNode 3 0 = LocalPos.atCenter :=
    placeNode_zero_of_lt (by norm_num)
  unfold flowNodes
  rw [hg]
  show layoutCluster (connCount (visibleEdges dataA filterNone)) 0
      dataA.nodes ++ [] = _
  unfold layoutCluster
  rw [hsort]
  rw [show dataA.nodes = [⟨"a", 50, false, some 0⟩, ⟨"b", 50, false, some 0⟩,
      ⟨"c", 50, false, some 0⟩] from rfl]
  simp only [placeMembers, List.length_cons, List.length_nil,
    List.append_nil]
  norm_num [hda, hdb, hdc, hp0, placeNode_three_one, placeNode_three_two]

/-- C6 counterexample: in scenario A, node `b` is placed neither at angle 0
nor at angle π (`anglePi = 1`): ring 1 carries the alternating offset π/8,
so its angle is π/8. -/
theorem scenarioA_angles_counterexample :
    ¬ ∃ fn ∈ flowNodes dataA filterNone, fn.id = "b" ∧
        (fn.pos = LocalPos.onRing 60 0 ∨ fn.pos = LocalPos.onRing 60 1) := by
  rw [flowNodes_dataA]
  rintro ⟨fn, hmem, hid, hpos⟩
  simp only [List.mem_cons, List.not_mem_nil, or_false] at hmem
  rcases hmem with rfl | rfl | rfl
  · exact absurd hid (by decide)
  · rcases hpos with h | h <;>
      · have := (LocalPos.onRing.inj h).2
        norm_num at this
  · exact absurd hid (by decide)

/-- C6 amended: hub `a` of scenario A is at the cluster centre with degree
2; `b` and `c` sit in ring 1 (radius 60) at angles π/8 and 9π/8 — evenly
spaced π apart, shifted by the odd-ring offset π/8 rather than at 0 and
π. -/
theorem scenarioA_ring_angles :
    flowNodes dataA filterNone =
      [⟨"a", some 0, 0, LocalPos.atCenter, 2⟩,
       ⟨"b", some 0, 0, LocalPos.onRing 60 (1/8), 1⟩,
       ⟨"c", some 0, 0, LocalPos.onRing 60 (9/8), 1⟩] ∧
    (9/8 : ℚ) - 1/8 = 1 :=
  ⟨flowNodes_dataA, by norm_num⟩

/-! ## Lemmas: the JS string primitives -/

theorem digitChar_toNat {d : Nat} (h : d < 10) :
    (digitChar d).toNat = 48 + d := by
  interval_cases d <;> decide

theorem digitChar_ne_minus {d : Nat} (h : d < 10) : digitChar d ≠ '-' := by
  interval_cases d <;> decide

theorem natToRevDigits_lt (n : Nat) : ∀ d ∈ natToRevDigits n, d < 10 := by
  induction n using Nat.strong_induction_on with
  | _ n ih =>
      match n with
      | 0 => simp [natToRevDigits]
      | m + 1 =>
          rw [natToRevDigits]
          intro d hd
          rcases List.mem_cons.mp hd with rfl | hd
          · exact Nat.mod_lt _ (by norm_num)
          · exact ih ((m + 1) / 10)
              (Nat.div_lt_self (Nat.succ_pos m) (by norm_num)) d hd

theorem digitsVal_append_digit (s : List Char) (c : Char) :
    digitsVal (s ++ [c]) = digitsVal s * 10 + (c.toNat - 48) := by
  unfold digitsVal
  rw [List.foldl_append]
  rfl

theorem digitsVal_natToRev (n : Nat) :
    digitsVal ((natToRevDigits n).reverse.map digitChar) = n := by
  induction n using Nat.strong_induction_on with
  | _ n ih =>
      match n with
      | 0 =>
          rw [natToRevDigits]
          rfl
      | m + 1 =>
          rw [natToRevDigits, List.reverse_cons, List.map_append]
          simp only [List.map_cons, List.map_nil]
          rw [digitsVal_append_digit,
            ih ((m + 1) / 10) (Nat.div_lt_self (Nat.succ_pos m) (by norm_num)),
            digitChar_toNat (Nat.mod_lt _ (show 0 < 10 by norm_num))]
          omega

theorem digitsVal_natToChars (n : Nat) : digitsVal (natToChars n) = n := by
  unfold natToChars
  by_cases h : n = 0
  · subst h
    decide
  · rw [if_neg h]
    exact digitsVal_natToRev n

theorem natToChars_ne_minus (n : Nat) : '-' ∉ natToChars n := by
  unfold natToChars
  by_cases h : n = 0
  · rw [if_pos h]
    decide
  · rw [if_neg h]
    intro hmem
    rcases List.mem_map.mp hmem with ⟨d, hd, heq⟩
    exact digitChar_ne_minus
      (natToRevDigits_lt n d (List.mem_reverse.mp hd)) heq

theorem intToChars_nonneg {a : Int} (h : 0 ≤ a) :
    intToChars a = natToChars a.toNat := by
  unfold intToChars
  rw [if_neg (not_lt.mpr h)]

theorem splitMinusAux_no_minus :
    ∀ (l cur : List Char), '-' ∉ l →
      splitMinusAux l cur = [cur.reverse ++ l] := by
  intro l
  induction l with
  | nil => intro cur _; simp [splitMinusAux]
  | cons c rest ih =>
      intro cur hnm
      have hc : ¬ (c = '-') := fun h => hnm (h ▸ List.mem_cons_self _ _)
      unfold splitMinusAux
      rw [if_neg hc, ih (c :: cur) fun h => hnm (List.mem_cons_of_mem _ h)]
      simp

theorem splitMinusAux_split :
    ∀ (l1 l2 cur : List Char), '-' ∉ l1 →
      splitMinusAux (l1 ++ '-' :: l2) cur =
        (cur.reverse ++ l1) :: splitMinusAux l2 [] := by
  intro l1
  induction l1 with
  | nil =>
      intro l2 cur _
      show splitMinusAux ('-' :: l2) cur = _
      rw [splitMinusAux, if_pos rfl]
      simp
  | cons c rest ih =>
      intro l2 cur hnm
      have hc : ¬ (c = '-') := fun h => hnm (h ▸ List.mem_cons_self _ _)
      rw [List.cons_append, splitMinusAux, if_neg hc,
        ih l2 (c :: cur) fun h => hnm (List.mem_cons_of_mem _ h)]
      simp

theorem splitMinus_pairKey {a b : Int} (ha : 0 ≤ a) (hb : 0 ≤ b) :
    splitMinus (pairKey a b) =
      [natToChars (min a b).toNat, natToChars (max a b).toNat] := by
  unfold pairKey splitMinus
  rw [intToChars_nonneg (le_min ha hb),
    intToChars_nonneg (le_trans ha (le_max_left a b))]
  rw [splitMinusAux_split _ _ _ (natToChars_ne_minus _),
    splitMinusAux_no_minus _ _ (natToChars_ne_minus _)]
  simp

theorem jsNum_natToChars (n : Nat) : jsNum (natToChars n) = (n : Int) := by
  unfold jsNum
  rw [digitsVal_natToChars]

theorem decode_pairKey {a b : Int} (ha : 0 ≤ a) (hb : 0 ≤ b) :
    jsNum ((splitMinus (pairKey a b)).getD 0 []) = min a b ∧
    jsNum ((splitMinus (pairKey a b)).getD 1 []) = max a b := by
  rw [splitMinus_pairKey ha hb]
  constructor
  · show jsNum (natToChars (min a b).toNat) = min a b
    rw [jsNum_natToChars]
    exact Int.toNat_of_nonneg (le_min ha hb)
  · show jsNum (natToChars (max a b).toNat) = max a b
    rw [jsNum_natToChars]
    exact Int.toNat_of_nonneg (le_trans ha (le_max_left a b))

theorem pairKey_sorted (a b : Int) :
    pairKey a b = pairKey (min a b) (max a b) := by
  unfold pairKey
  have h1 : min (min a b) (max a b) = min a b := by omega
  have h2 : max (min a b) (max a b) = max a b := by omega
  rw [h1, h2]

theorem pairKey_inj {a b a' b' : Int} (ha : 0 ≤ a) (hab : a < b)
    (ha' : 0 ≤ a') (hab' : a' < b')
    (h : pairKey a b = pairKey a' b') : a = a' ∧ b = b' := by
  have hb : 0 ≤ b := le_of_lt (lt_of_le_of_lt ha hab)
  have hb' : 0 ≤ b' := le_of_lt (lt_of_le_of_lt ha' hab')
  have d1 := decode_pairKey ha hb
  have d2 := decode_pairKey ha' hb'
  rw [h] at d1
  have hmin : min a' b' = min a b := by rw [← d1.1, d2.1]
  have hmax : max a' b' = max a b := by rw [← d1.2, d2.2]
  constructor <;> omega

/-! ## Lemmas: connector resolver -/

theorem filteredNodes_subset (data : GraphData) (f : Filters) {n : Node}
    (h : n ∈ filteredNodes data f) : n ∈ data.nodes :=
  List.mem_of_mem_filter h

theorem filteredNodes_ids_nodup (data : GraphData) (f : Filters)
    (H0 : (data.nodes.map Node.id).Nodup) :
    ((filteredNodes data f).map Node.id).Nodup :=
  H0.sublist (List.Sublist.map Node.id (List.filter_sublist _))

/-- The JS map built by the `forEach` over `flowNodes` agrees, on every id,
with a direct search over the visible nodes (when ids are unique). -/
theorem nodeClusterMap_eq_find (data : GraphData) (f : Filters)
    (H0 : ((filteredNodes data f).map Node.id).Nodup) (i : String) :
    nodeClusterMap (flowNodes data f) i =
      ((filteredNodes data f).find? fun n => n.id = i).bind
        Node.cluster_id := by
  cases hf : (filteredNodes data f).find? (fun n => n.id = i) with
  | none =>
      rw [List.find?_eq_none] at hf
      unfold nodeClusterMap
      have hnone : (flowNodes data f).reverse.find?
          (fun fn => fn.id = i) = none := by
        rw [List.find?_eq_none]
        intro fn hfn
        obtain ⟨n, hn, hid, -, -, -⟩ :=
          mem_flowNodes data f (List.mem_reverse.mp hfn)
        simp only [decide_eq_true_eq]
        intro hcon
        exact absurd (by simpa using (hid ▸ hcon : n.id = i))
          (by simpa using hf n hn)
      rw [hnone]
      rfl
  | some n =>
      have hn_mem : n ∈ filteredNodes data f := List.mem_of_find?_eq_some hf
      have hn_id : n.id = i := by simpa using List.find?_some hf
      have hex : ∃ fn ∈ (flowNodes data f).reverse, fn.id = i := by
        have hid : i ∈ (flowNodes data f).map FlowNode.id := by
          rw [(flowNodes_ids_perm data f).mem_iff]
          exact List.mem_map.mpr ⟨n, hn_mem, hn_id⟩
        rcases List.mem_map.mp hid with ⟨fn, hfn, hfnid⟩
        exact ⟨fn, List.mem_reverse.mpr hfn, hfnid⟩
      obtain ⟨fn0, hfn0r, hfn0id⟩ := hex
      cases hr : (flowNodes data f).reverse.find? (fun fn => fn.id = i) with
      | none =>
          exfalso
          rw [List.find?_eq_none] at hr
          exact hr fn0 hfn0r (by simp [hfn0id])
      | some fnr =>
          unfold nodeClusterMap
          rw [hr]
          have hfnr_mem : fnr ∈ flowNodes data f :=
            List.mem_reverse.mp (List.mem_of_find?_eq_some hr)
          have hfnr_id : fnr.id = i := by simpa using List.find?_some hr
          obtain ⟨m, hm_mem, hm_id, hm_cid, -, -⟩ :=
            mem_flowNodes data f hfnr_mem
          have hmn : m = n := by
            have hinj := List.inj_on_of_nodup_map H0
            exact hinj hm_mem hn_mem (by rw [← hm_id, hfnr_id, hn_id])
          show fnr.cluster_id = n.cluster_id
          rw [hm_cid, hmn]

theorem find?_map_key {F : Int → List Node} :
    ∀ (ks : List Int) (c : Int), c ∈ ks →
      (ks.map fun k => (k, F k)).find? (fun p => p.1 = c) = some (c, F c) := by
  intro ks
  induction ks with
  | nil => intro c hc; cases hc
  | cons k t ih =>
      intro c hc
      rw [List.map_cons]
      by_cases h : k = c
      · subst h
        rw [List.find?_cons_of_pos _ (by simp)]
      · rw [List.find?_cons_of_neg _ (by simpa using h)]
        rcases List.mem_cons.mp hc with rfl | hc0
        · exact absurd rfl h
        · exact ih c hc0

/-- Every cluster key carried by a visible node has a hub entry in
`clusterCenters`, and (for non-empty ids) the hub id is a non-empty
string. -/
theorem clusterCenters_of_key (data : GraphData) (f : Filters)
    (H2 : ∀ n ∈ filteredNodes data f, n.id ≠ "") (c : Int)
    (hc : ∃ n ∈ filteredNodes data f, groupKey n = c) :
    ∃ s, hubId data f c = some s ∧ s ≠ "" := by
  obtain ⟨n, hn, hgk⟩ := hc
  have hkey : c ∈ entriesOrder (distinctKeys (filteredNodes data f)) := by
    rw [(entriesOrder_perm _).mem_iff, mem_distinctKeys]
    exact ⟨n, hn, hgk⟩
  have hfind := find?_map_key
    (F := fun k => (filteredNodes data f).filter fun n => groupKey n = k)
    _ c hkey
  have hmem : n ∈ (filteredNodes data f).filter
      (fun n => groupKey n = c) := by
    rw [List.mem_filter]
    exact ⟨hn, by simpa using hgk⟩
  have hne : (filteredNodes data f).filter
      (fun n => groupKey n = c) ≠ [] := by
    intro hnil
    rw [hnil] at hmem
    cases hmem
  obtain ⟨hub, hhub, hmax⟩ :=
    reduceHub_spec (connCount (visibleEdges data f)) _ hne
  have hhub_mem : hub ∈ (filteredNodes data f).filter
      (fun n => groupKey n = c) := by
    obtain ⟨l1, l2, heq, -, -⟩ := hmax
    rw [heq]
    exact List.mem_append.mpr (Or.inr (List.mem_cons_self _ _))
  refine ⟨hub.id, ?_, ?_⟩
  · unfold hubId clusterCenters clusterGroups
    rw [hfind]
    show (reduceHub (connCount (visibleEdges data f)) _).map Node.id = _
    rw [hhub]
    rfl
  · exact H2 hub (List.mem_of_mem_filter hhub_mem)

theorem insertDistinct_map_pairKey (accP : List (Int × Int)) (q : Int × Int)
    (hinv : ∀ p ∈ accP, 0 ≤ p.1 ∧ p.1 < p.2) (hq1 : 0 ≤ q.1)
    (hq2 : q.1 < q.2) :
    insertDistinct (accP.map fun p => pairKey p.1 p.2) (pairKey q.1 q.2) =
      (insertDistinct accP q).map fun p => pairKey p.1 p.2 := by
  have hiff : pairKey q.1 q.2 ∈ (accP.map fun p => pairKey p.1 p.2) ↔
      q ∈ accP := by
    constructor
    · intro hm
      rcases List.mem_map.mp hm with ⟨p, hp, hpe⟩
      obtain ⟨h1, h2⟩ :=
        pairKey_inj (hinv p hp).1 (hinv p hp).2 hq1 hq2 hpe
      have hpq : p = q := Prod.ext h1 h2
      rwa [← hpq]
    · intro hm
      exact List.mem_map.mpr ⟨q, hm, rfl⟩
  unfold insertDistinct
  by_cases h : q ∈ accP
  · rw [if_pos (hiff.mpr h), if_pos h]
  · rw [if_neg (fun hc => h (hiff.mp hc)), if_neg h, List.map_append]
    rfl

/-- The string-keyed `connectedClusters` fold mirrors the spec-side
integer-pair fold step by step, provided every visible node has a defined,
non-negative cluster id. -/
theorem crossPairs_spec_fold (data : GraphData) (f : Filters)
    (H0 : ((filteredNodes data f).map Node.id).Nodup)
    (H1 : ∀ n ∈ filteredNodes data f, ∃ c, n.cluster_id = some c ∧ 0 ≤ c) :
    ∀ (es : List Edge) (accP : List (Int × Int)),
      (∀ e ∈ es, e.source ∈ (filteredNodes data f).map Node.id ∧
        e.target ∈ (filteredNodes data f).map Node.id) →
      (∀ q ∈ accP, 0 ≤ q.1 ∧ q.1 < q.2 ∧
        (∃ n ∈ filteredNodes data f, groupKey n = q.1) ∧
        ∃ n ∈ filteredNodes data f, groupKey n = q.2) →
      es.foldl (crossStep (flowNodes data f))
          (accP.map fun q => pairKey q.1 q.2) =
        (es.foldl (specStep (filteredNodes data f)) accP).map
          (fun q => pairKey q.1 q.2) ∧
      ∀ q ∈ es.foldl (specStep (filteredNodes data f)) accP,
        0 ≤ q.1 ∧ q.1 < q.2 ∧
        (∃ n ∈ filteredNodes data f, groupKey n = q.1) ∧
        ∃ n ∈ filteredNodes data f, groupKey n = q.2 := by
  have H0' := H0
  intro es
  induction es with
  | nil =>
      intro accP _ hinv
      exact ⟨rfl, hinv⟩
  | cons e t ih =>
      intro accP hcov hinv
      rw [List.foldl_cons, List.foldl_cons]
      obtain ⟨hsrc, htgt⟩ := hcov e (List.mem_cons_self _ _)
      have hcov' : ∀ e' ∈ t,
          e'.source ∈ (filteredNodes data f).map Node.id ∧
          e'.target ∈ (filteredNodes data f).map Node.id :=
        fun e' he' => hcov e' (List.mem_cons_of_mem _ he')
      -- the two find? lookups succeed
      rcases List.mem_map.mp hsrc with ⟨ns0, hns0, hns0id⟩
      rcases List.mem_map.mp htgt with ⟨nt0, hnt0, hnt0id⟩
      obtain ⟨ns, hns⟩ : ∃ ns, (filteredNodes data f).find?
          (fun n => n.id = e.source) = some ns := by
        cases hco : (filteredNodes data f).find?
            (fun n => n.id = e.source) with
        | none =>
            exfalso
            rw [List.find?_eq_none] at hco
            exact hco ns0 hns0 (by simp [hns0id])
        | some x => exact ⟨x, rfl⟩
      obtain ⟨nt, hnt⟩ : ∃ nt, (filteredNodes data f).find?
          (fun n => n.id = e.target) = some nt := by
        cases hco : (filteredNodes data f).find?
            (fun n => n.id = e.target) with
        | none =>
            exfalso
            rw [List.find?_eq_none] at hco
            exact hco nt0 hnt0 (by simp [hnt0id])
        | some x => exact ⟨x, rfl⟩
      have hns_mem : ns ∈ filteredNodes data f := List.mem_of_find?_eq_some hns
      have hnt_mem : nt ∈ filteredNodes data f := List.mem_of_find?_eq_some hnt
      obtain ⟨ca, hca, hca0⟩ := H1 ns hns_mem
      obtain ⟨cb, hcb, hcb0⟩ := H1 nt hnt_mem
      have hgka : groupKey ns = ca := by rw [groupKey, hca]; rfl
      have hgkb : groupKey nt = cb := by rw [groupKey, hcb]; rfl
      -- both steps take the same branch
      have hcs : crossStep (flowNodes data f)
          (accP.map fun q => pairKey q.1 q.2) e =
          if ca ≠ cb then
            insertDistinct (accP.map fun q => pairKey q.1 q.2)
              (pairKey ca cb)
          else accP.map fun q => pairKey q.1 q.2 := by
        unfold crossStep
        rw [nodeClusterMap_eq_find data f H0' e.source,
          nodeClusterMap_eq_find data f H0' e.target, hns, hnt]
        show (match ns.cluster_id, nt.cluster_id with
          | some a, some b => if a ≠ b then
              insertDistinct
                (accP.map fun q : Int × Int => pairKey q.1 q.2)
                (pairKey a b)
            else accP.map fun q : Int × Int => pairKey q.1 q.2
          | _, _ => accP.map fun q : Int × Int => pairKey q.1 q.2) = _
        rw [hca, hcb]
      have hss : specStep (filteredNodes data f) accP e =
          if ca ≠ cb then
            insertDistinct accP (min ca cb, max ca cb)
          else accP := by
        unfold specStep
        rw [hns, hnt]
        show (if groupKey ns ≠ groupKey nt then
            insertDistinct accP (min (groupKey ns) (groupKey nt),
              max (groupKey ns) (groupKey nt))
          else accP) = _
        rw [hgka, hgkb]
      rw [hcs, hss]
      by_cases hab : ca ≠ cb
      · rw [if_pos hab, if_pos hab]
        have hmm : ca < cb ∨ cb < ca := by omega
        have hminmax : 0 ≤ min ca cb ∧ min ca cb < max ca cb := by
          constructor
          · exact le_min hca0 hcb0
          · omega
        have henc : pairKey ca cb = pairKey (min ca cb) (max ca cb) :=
          pairKey_sorted ca cb
        have hinv1 : ∀ p ∈ accP, 0 ≤ p.1 ∧ p.1 < p.2 :=
          fun p hp => ⟨(hinv p hp).1, (hinv p hp).2.1⟩
        have hstep := insertDistinct_map_pairKey accP
          (min ca cb, max ca cb) hinv1 hminmax.1 hminmax.2
        rw [henc]
        have hinv' : ∀ q ∈ insertDistinct accP (min ca cb, max ca cb),
            0 ≤ q.1 ∧ q.1 < q.2 ∧
            (∃ n ∈ filteredNodes data f, groupKey n = q.1) ∧
            ∃ n ∈ filteredNodes data f, groupKey n = q.2 := by
          intro q hq
          rcases (mem_insertDistinct _ _ _).mp hq with hq | rfl
          · exact hinv q hq
          · refine ⟨hminmax.1, hminmax.2, ?_, ?_⟩
            · rcases hmm with h | h
              · exact ⟨ns, hns_mem, by rw [hgka]; show ca = _; omega⟩
              · exact ⟨nt, hnt_mem, by rw [hgkb]; show cb = _; omega⟩
            · rcases hmm with h | h
              · exact ⟨nt, hnt_mem, by rw [hgkb]; show cb = _; omega⟩
              · exact ⟨ns, hns_mem, by rw [hgka]; show ca = _; omega⟩
        rw [hstep]
        exact ih _ hcov' hinv'
      · rw [if_neg hab, if_neg hab]
        exact ih accP hcov' hinv

theorem filterMap_eq_map_of_forall {α β : Type} {g : α → Option β}
    {h : α → β} :
    ∀ l : List α, (∀ x ∈ l, g x = some (h x)) → l.filterMap g = l.map h := by
  intro l
  induction l with
  | nil => intro _; rfl
  | cons a t ih =>
      intro hall
      rw [List.filterMap_cons, hall a (List.mem_cons_self _ _)]
      show h a :: t.filterMap g = h a :: t.map h
      rw [ih fun x hx => hall x (List.mem_cons_of_mem _ hx)]

/-- C5 amended: when every visible node has a defined non-negative cluster
id and the visible ids are unique, non-empty strings, the synthesized
connector edges are exactly one per distinct unordered crossing cluster
pair, each between the two clusters' hub node ids; in particular their
number equals the number of distinct crossing pairs. -/
theorem connector_resolver_correct (data : GraphData) (f : Filters)
    (H0 : ((filteredNodes data f).map Node.id).Nodup)
    (H1 : ∀ n ∈ filteredNodes data f, ∃ c, n.cluster_id = some c ∧ 0 ≤ c)
    (H2 : ∀ n ∈ filteredNodes data f, n.id ≠ "") :
    (connectorEdges (clusterGroups data f) (connCount (visibleEdges data f))
        (flowNodes data f) (visibleEdges data f)).length =
      (specCrossingPairs (filteredNodes data f)
        (visibleEdges data f)).length ∧
    connectorEdges (clusterGroups data f) (connCount (visibleEdges data f))
        (flowNodes data f) (visibleEdges data f) =
      (specCrossingPairs (filteredNodes data f) (visibleEdges data f)).map
        (fun q => { c1 := q.1, c2 := q.2,
                    src := (hubId data f q.1).getD "",
                    tgt := (hubId data f q.2).getD "" }) ∧
    ∀ q ∈ specCrossingPairs (filteredNodes data f) (visibleEdges data f),
      (hubId data f q.1).isSome ∧ (hubId data f q.2).isSome := by
  have hcov : ∀ e ∈ visibleEdges data f,
      e.source ∈ (filteredNodes data f).map Node.id ∧
      e.target ∈ (filteredNodes data f).map Node.id := by
    intro e he
    rw [visibleEdges, List.mem_filter] at he
    have h2 := he.2
    simp at h2
    exact ⟨List.mem_map.mpr h2.1, List.mem_map.mpr h2.2⟩
  have hfold := crossPairs_spec_fold data f H0 H1 (visibleEdges data f) []
    hcov (by intro q hq; cases hq)
  have hcp : crossPairs (flowNodes data f) (visibleEdges data f) =
      (specCrossingPairs (filteredNodes data f) (visibleEdges data f)).map
        (fun q => pairKey q.1 q.2) := by
    unfold crossPairs specCrossingPairs
    simpa using hfold.1
  have hinv : ∀ q ∈ specCrossingPairs (filteredNodes data f)
      (visibleEdges data f),
      0 ≤ q.1 ∧ q.1 < q.2 ∧
      (∃ n ∈ filteredNodes data f, groupKey n = q.1) ∧
      ∃ n ∈ filteredNodes data f, groupKey n = q.2 := hfold.2
  have hconn : connectorEdges (clusterGroups data f)
      (connCount (visibleEdges data f)) (flowNodes data f)
      (visibleEdges data f) =
      (specCrossingPairs (filteredNodes data f) (visibleEdges data f)).map
        (fun q => { c1 := q.1, c2 := q.2,
                    src := (hubId data f q.1).getD "",
                    tgt := (hubId data f q.2).getD "" }) := by
    unfold connectorEdges
    rw [hcp, List.filterMap_map]
    apply filterMap_eq_map_of_forall
    intro q hq
    obtain ⟨hq1, hqlt, hw1, hw2⟩ := hinv q hq
    have hq2 : 0 ≤ q.2 := le_trans hq1 (le_of_lt hqlt)
    obtain ⟨s1, hs1, hs1ne⟩ := clusterCenters_of_key data f H2 q.1 hw1
    obtain ⟨s2, hs2, hs2ne⟩ := clusterCenters_of_key data f H2 q.2 hw2
    have hs1' : clusterCenters (clusterGroups data f)
        (connCount (visibleEdges data f)) q.1 = some s1 := hs1
    have hs2' : clusterCenters (clusterGroups data f)
        (connCount (visibleEdges data f)) q.2 = some s2 := hs2
    simp only [Function.comp]
    have hd := decode_pairKey hq1 hq2
    rw [splitMinus_pairKey hq1 hq2]
    show (match
        clusterCenters (clusterGroups data f)
          (connCount (visibleEdges data f))
          (jsNum (([natToChars (min q.1 q.2).toNat,
            natToChars (max q.1 q.2).toNat]).getD 0 [])),
        clusterCenters (clusterGroups data f)
          (connCount (visibleEdges data f))
          (jsNum (([natToChars (min q.1 q.2).toNat,
            natToChars (max q.1 q.2).toNat]).getD 1 [])) with
      | some s1, some s2 =>
          if s1 ≠ "" ∧ s2 ≠ "" then
            some (⟨jsNum (([natToChars (min q.1 q.2).toNat,
                     natToChars (max q.1 q.2).toNat]).getD 0 []),
                   jsNum (([natToChars (min q.1 q.2).toNat,
                     natToChars (max q.1 q.2).toNat]).getD 1 []),
                   s1, s2⟩ : Connector)
          else none
      | _, _ => none) = _
    have hn1 : jsNum (([natToChars (min q.1 q.2).toNat,
        natToChars (max q.1 q.2).toNat]).getD 0 []) = q.1 := by
      show jsNum (natToChars (min q.1 q.2).toNat) = q.1
      rw [jsNum_natToChars, Int.toNat_of_nonneg (le_min hq1 hq2),
        min_eq_left (le_of_lt hqlt)]
    have hn2 : jsNum (([natToChars (min q.1 q.2).toNat,
        natToChars (max q.1 q.2).toNat]).getD 1 []) = q.2 := by
      show jsNum (natToChars (max q.1 q.2).toNat) = q.2
      rw [jsNum_natToChars,
        Int.toNat_of_nonneg (le_trans hq1 (le_max_left q.1 q.2)),
        max_eq_right (le_of_lt hqlt)]
    rw [hn1, hn2, hs1', hs2']
    show (if s1 ≠ "" ∧ s2 ≠ "" then
        some (⟨q.1, q.2, s1, s2⟩ : Connector)
      else none) = _
    rw [if_pos ⟨hs1ne, hs2ne⟩, hs1, hs2]
    rfl
  refine ⟨?_, hconn, ?_⟩
  · rw [hconn, List.length_map]
  · intro q hq
    obtain ⟨hq1, hqlt, hw1, hw2⟩ := hinv q hq
    obtain ⟨s1, hs1, -⟩ := clusterCenters_of_key data f H2 q.1 hw1
    obtain ⟨s2, hs2, -⟩ := clusterCenters_of_key data f H2 q.2 hw2
    rw [hs1, hs2]
    exact ⟨rfl, rfl⟩

/-- Witness for C5's amended claim: the crossing edge between clusters 0
and 3 yields exactly one connector. -/
theorem connector_resolver_correct_witness :
    (connectorEdges (clusterGroups dataPos filterNone)
        (connCount (visibleEdges dataPos filterNone))
        (flowNodes dataPos filterNone)
        (visibleEdges dataPos filterNone)).length =
      (specCrossingPairs (filteredNodes dataPos filterNone)
        (visibleEdges dataPos filterNone)).length :=
  (connector_resolver_correct dataPos filterNone (by decide) (by decide)
    (by decide)).1

/-- C5 counterexample: with a crossing edge between clusters −1 and 3
there is one distinct crossing pair but zero connector edges — the pair
key "-1-3" splits into clusters 0 and 1, which have no hubs. -/
theorem connector_negative_counterexample :
    connectorEdges (clusterGroups dataNeg filterNone)
        (connCount (visibleEdges dataNeg filterNone))
        (flowNodes dataNeg filterNone)
        (visibleEdges dataNeg filterNone) = [] ∧
    specCrossingPairs (filteredNodes dataNeg filterNone)
        (visibleEdges dataNeg filterNone) = [(-1, 3)] := by
  constructor
  · decide
  · decide

end MuleShield
